import Mathlib

/-!
Verification development for the `build_initial_hubspot_data` pipeline
(`src/build_initial_hubspot_data/main.py`).

The pure data transformations of the source are embedded as Lean
functions over lists and `Option` values:

* `extract_version_from_serial`, `get_features` — serial-derived version
  and capability flags;
* `extract_plmn_code_from_qnwinfo`, `plmn_code_to_operator_name`,
  `extract_operator_name_from_qnwinfo` — modem-status operator resolution;
* `things_to_dataframe` — inventory normalization over a small model of
  Python values (`PyVal`), with `Except` capturing `AttributeError`;
* `add_human_name_column`, `add_sensor_link_date`, `add_first_link_date`,
  `add_last_unlink_date` — the pandas merge passes, modelled on lists of
  rows.  `DataFrame.sort_values` is modelled by a stable `insertionSort`
  with nulls ordered last (pandas `na_position` defaults to `'last'`),
  `drop_duplicates(keep='first')` by `dropDupBy`, and `merge(how='left')`
  by per-row match expansion, which is exactly pandas' left-join row
  semantics.  Timestamps are modelled as `Int`, python `None` / pandas
  `NaN` as `Option.none`.
-/

namespace HubspotData

/-! ### Version extraction (`extract_version_from_serial`) -/

/-- One attempt of the regex `muvtx_(\d{3})_` at the head of the character
list: the literal `muvtx_`, three digits, then `_`. -/
def verMatchAt : List Char → Option (Char × Char × Char)
  | 'm' :: 'u' :: 'v' :: 't' :: 'x' :: '_' :: d1 :: d2 :: d3 :: '_' :: _ =>
    if d1.isDigit && d2.isDigit && d3.isDigit then some (d1, d2, d3) else none
  | _ => none

/-- `re.search` for the pattern `muvtx_(\d{3})_`: try every start position,
left to right. -/
def searchVer : List Char → Option (Char × Char × Char)
  | [] => none
  | c :: t =>
    match verMatchAt (c :: t) with
    | some r => some r
    | none => searchVer t

/-- `extract_version_from_serial` from the source: falsy (absent or empty)
serial gives `None`; a match of `muvtx_(\d{3})_` with digits `d1 d2 d3`
gives the string `int(d2)` `.` `d3`; otherwise `None`. -/
def extract_version_from_serial (serial_number : Option String) : Option String :=
  match serial_number with
  | none => none
  | some s =>
    if s.data.isEmpty then none
    else
      match searchVer s.data with
      | some dig => some (toString (dig.2.1.toNat - 48) ++ "." ++ String.singleton dig.2.2)
      | none => none

/-! ### Feature flags (`add_feature_columns`) -/

/-- Value of an unsigned digit run, most significant first. -/
def digitsVal (l : List Char) : Nat := l.foldl (fun n c => 10 * n + (c.toNat - 48)) 0

/-- Split a character list at the first `'.'`, if any. -/
def splitAtDot : List Char → List Char × Option (List Char)
  | [] => ([], none)
  | '.' :: t => ([], some t)
  | c :: t =>
    let p := splitAtDot t
    (c :: p.1, p.2)

/-- Model of Python `float()` on plain decimal literals
`[sign] digits [. digits]` (at least one digit), returning the exact
rational value; any other shape is rejected.  Exponent notation,
`inf` / `nan`, surrounding whitespace and digit underscores — which
`float()` also accepts — never occur for the version strings this
pipeline produces, so they are outside the model. -/
def pyFloat (s : String) : Option ℚ :=
  let sb : Int × List Char :=
    match s.data with
    | '+' :: t => (1, t)
    | '-' :: t => (-1, t)
    | t => (1, t)
  let p := splitAtDot sb.2
  match p.2 with
  | none =>
    if !p.1.isEmpty && p.1.all Char.isDigit then some (mkRat (sb.1 * digitsVal p.1) 1)
    else none
  | some fp =>
    if fp.contains '.' then none
    else if (!p.1.isEmpty || !fp.isEmpty) && p.1.all Char.isDigit && fp.all Char.isDigit then
      some (mkRat (sb.1 * (digitsVal p.1 * 10 ^ fp.length + digitsVal fp)) (10 ^ fp.length))
    else none

/-- `FEATURE_VERSION_THRESHOLD = 2.1` from the source, as the exact
rational 21/10. -/
def FEATURE_VERSION_THRESHOLD : ℚ := mkRat 21 10

/-- The inner `get_features` of `add_feature_columns`: the
(hauteur, temperature, image) flags for one version value. -/
def get_features (version_str : Option String) : String × String × String :=
  match version_str with
  | none => ("Non", "Non", "Non")
  | some s =>
    match pyFloat s with
    | some version_float =>
      if FEATURE_VERSION_THRESHOLD ≤ version_float then ("Oui", "Oui", "Oui")
      else ("Oui", "Non", "Oui")
    | none => ("Non", "Non", "Non")

/-! ### Operator resolution (`extract_plmn_code_from_qnwinfo` and friends) -/

/-- Python `\s` on the ASCII range of whitespace. -/
def isPySpace (c : Char) : Bool :=
  c = ' ' || c = '\t' || c = '\n' || c = '\x0d' || c = '\x0b' || c = '\x0c'

/-- Greedy `\s*`. -/
def skipSpaces : List Char → List Char
  | [] => []
  | c :: t => if isPySpace c then skipSpaces t else c :: t

/-- After the first quoted field: the literal `,"`, five digits, `",`. -/
def qnwCode : List Char → Option String
  | ',' :: '"' :: a :: b :: c :: d :: e :: '"' :: ',' :: _ =>
    if a.isDigit && b.isDigit && c.isDigit && d.isDigit && e.isDigit then
      some (String.mk [a, b, c, d, e])
    else none
  | _ => none

/-- Consume `[^"]*` then the closing `"` of the first quoted field. -/
def qnwField : List Char → Option String
  | [] => none
  | c :: rest => if c = '"' then qnwCode rest else qnwField rest

/-- One attempt of `\+QNWINFO:\s*"[^"]*","(\d{5})",` at the head. -/
def qnwMatchAt : List Char → Option String
  | '+' :: 'Q' :: 'N' :: 'W' :: 'I' :: 'N' :: 'F' :: 'O' :: ':' :: rest =>
    match skipSpaces rest with
    | '"' :: rest2 => qnwField rest2
    | _ => none
  | _ => none

/-- `re.search` for the `+QNWINFO` pattern: try every start position. -/
def searchQnw : List Char → Option String
  | [] => none
  | c :: t =>
    match qnwMatchAt (c :: t) with
    | some r => some r
    | none => searchQnw t

/-- `extract_plmn_code_from_qnwinfo` from the source. -/
def extract_plmn_code_from_qnwinfo (response : String) : Option String :=
  searchQnw response.data

/-- `get_operator_plmn_mappings` from the source: the static PLMN table. -/
def get_operator_plmn_mappings : List (String × String) :=
  [("20801", "Orange"), ("20810", "SFR"), ("20815", "Free"),
   ("20820", "Bouygues Telecom"), ("21407", "Movistar"), ("21901", "T-Mobile"),
   ("21902", "Telemach / Tele2"), ("21910", "A1 / VIP"), ("22210", "Vodafone"),
   ("22288", "WindTre / WIND"), ("23420", "3"), ("26201", "T-mobile"),
   ("50501", "Telstra"), ("60400", "Orange"), ("61701", "my.t mobile"),
   ("61710", "Emtel")]

/-- `plmn_code_to_operator_name`: `dict.get(plmn_code, plmn_code)` — an
unknown code falls back to the code itself. -/
def plmn_code_to_operator_name (plmn_code : String) : String :=
  (get_operator_plmn_mappings.lookup plmn_code).getD plmn_code

/-- `extract_operator_name_from_qnwinfo` from the source; `if plmn_code:`
is the Python truthiness test, false exactly for the empty string. -/
def extract_operator_name_from_qnwinfo (qnwinfo : String) : Option String :=
  match extract_plmn_code_from_qnwinfo qnwinfo with
  | some plmn_code => if plmn_code = "" then none else some (plmn_code_to_operator_name plmn_code)
  | none => none

/-! ### Inventory normalization (`things_to_dataframe`) -/

/-- A small model of the Python values reaching the normalizer: `None`,
strings, numbers and dicts. -/
inductive PyVal where
  | pnone : PyVal
  | pstr : String → PyVal
  | pnum : Int → PyVal
  | pdict : List (String × PyVal) → PyVal

/-- Python `x.get(k, dflt)`: defined for dicts, an `AttributeError` for
any other receiver (in particular `None`). -/
def pyGetD : PyVal → String → PyVal → Except String PyVal
  | PyVal.pdict es, k, dflt => Except.ok ((es.lookup k).getD dflt)
  | _, _, _ => Except.error "AttributeError"

/-- One row of the normalized inventory table. -/
structure ThingRow where
  prod_name : PyVal
  serial_number : PyVal
  production_date : PyVal
  updated_at : PyVal
  latitude : PyVal
  longitude : PyVal

/-- The per-record body of the `for thing in things` loop of
`things_to_dataframe`.  A raw record is a dict, i.e. a list of
(key, value) entries; `thing.get('current_value', {})` and
`current_value.get('reported', {})` default only when the key is absent,
so a key present with value `None` flows into the next `.get` and
raises. -/
def thingToRow (thing : List (String × PyVal)) : Except String ThingRow :=
  match pyGetD ((thing.lookup "current_value").getD (PyVal.pdict [])) "reported" (PyVal.pdict []) with
  | Except.error e => Except.error e
  | Except.ok reported =>
    match pyGetD reported "SERIAL_NUMBER" PyVal.pnone with
    | Except.error e => Except.error e
    | Except.ok serial_number =>
      match pyGetD reported "COORDINATES_LAT" PyVal.pnone with
      | Except.error e => Except.error e
      | Except.ok latitude =>
        match pyGetD reported "COORDINATES_LON" PyVal.pnone with
        | Except.error e => Except.error e
        | Except.ok longitude =>
          Except.ok { prod_name := (thing.lookup "id").getD PyVal.pnone,
                      serial_number := serial_number,
                      production_date := (thing.lookup "created_at").getD PyVal.pnone,
                      updated_at := (thing.lookup "updated_at").getD PyVal.pnone,
                      latitude := latitude,
                      longitude := longitude }

/-- `things_to_dataframe` from the source: the rows appended per input
record, in input order; the `Except` layer records a raised
`AttributeError`, which aborts the loop at the offending record. -/
def things_to_dataframe : List (List (String × PyVal)) → Except String (List ThingRow)
  | [] => Except.ok []
  | t :: ts =>
    match thingToRow t with
    | Except.error e => Except.error e
    | Except.ok row =>
      match things_to_dataframe ts with
      | Except.error e => Except.error e
      | Except.ok rows => Except.ok (row :: rows)

/-- A raw record is benign when its `current_value`, if present, is a
dict whose `reported` entry, if present, is itself a dict. -/
def goodRec (thing : List (String × PyVal)) : Bool :=
  match (thing.lookup "current_value").getD (PyVal.pdict []) with
  | PyVal.pdict es =>
    match (es.lookup "reported").getD (PyVal.pdict []) with
    | PyVal.pdict _ => true
    | _ => false
  | _ => false

/-- Spec-side canonical extraction of one row (total): identity, creation
time, update time, serial, latitude, longitude; each missing field is
`None`. -/
def rowOfThing (thing : List (String × PyVal)) : ThingRow :=
  let cvEntries : List (String × PyVal) :=
    match (thing.lookup "current_value").getD (PyVal.pdict []) with
    | PyVal.pdict es => es
    | _ => []
  let repEntries : List (String × PyVal) :=
    match (cvEntries.lookup "reported").getD (PyVal.pdict []) with
    | PyVal.pdict es => es
    | _ => []
  { prod_name := (thing.lookup "id").getD PyVal.pnone,
    serial_number := (repEntries.lookup "SERIAL_NUMBER").getD PyVal.pnone,
    production_date := (thing.lookup "created_at").getD PyVal.pnone,
    updated_at := (thing.lookup "updated_at").getD PyVal.pnone,
    latitude := (repEntries.lookup "COORDINATES_LAT").getD PyVal.pnone,
    longitude := (repEntries.lookup "COORDINATES_LON").getD PyVal.pnone }

/-! ### The link-date tables and merge passes -/

/-- One record of the `link_dates` table built by `get_link_dates`:
assignment name, device key, first-event timestamp, derived carrier,
last-event timestamp. -/
structure LinkRec where
  human_name : Option String
  prod_name : String
  link_date : Option Int
  link_operator : Option String
  unlink_date : Option Int
deriving DecidableEq

/-- One row of the device table as it moves through the enrichment
passes.  The key column `prod_name` is what every merge joins on; the
remaining inventory columns ride along unchanged and are elided.  The
five enrichment columns start out absent (`none`), matching a frame that
does not yet have them. -/
structure Row where
  prod_name : String
  human_name : Option String := none
  last_link_date : Option Int := none
  last_link_operator : Option String := none
  first_link_date : Option Int := none
  last_unlink_date : Option Int := none
deriving DecidableEq

/-- One row of the `sensors` table built by `sensors_to_dataframe`:
the active thing id and the assignment name. -/
structure SensorRow where
  prod_name : Option String
  human_name : Option String
deriving DecidableEq

/-- Null-last comparison of optional timestamps, ascending: `none` (pandas
`NaN` with `na_position='last'`) sorts after every value. -/
def ascOpt : Option Int → Option Int → Bool
  | _, none => true
  | none, some _ => false
  | some x, some y => decide (x ≤ y)

/-- Ascending order on history records by `link_date`
(`sort_values('link_date')`). -/
def linkAsc (r1 r2 : LinkRec) : Prop := ascOpt r1.link_date r2.link_date = true

/-- Descending order on history records by `link_date`
(`sort_values('link_date', ascending=False)`), nulls still last. -/
def linkDesc (r1 r2 : LinkRec) : Prop :=
  ascOpt (r1.link_date.map (fun x => -x)) (r2.link_date.map (fun x => -x)) = true

/-- Descending order on history records by `unlink_date`. -/
def unlinkDesc (r1 r2 : LinkRec) : Prop :=
  ascOpt (r1.unlink_date.map (fun x => -x)) (r2.unlink_date.map (fun x => -x)) = true

instance : DecidableRel linkAsc := fun r1 r2 => by unfold linkAsc; infer_instance

instance : DecidableRel linkDesc := fun r1 r2 => by unfold linkDesc; infer_instance

instance : DecidableRel unlinkDesc := fun r1 r2 => by unfold unlinkDesc; infer_instance

theorem ascOpt_total (a b : Option Int) : ascOpt a b = true ∨ ascOpt b a = true := by
  cases a <;> cases b <;> simp [ascOpt] <;> omega

theorem ascOpt_trans {a b c : Option Int} (h1 : ascOpt a b = true) (h2 : ascOpt b c = true) :
    ascOpt a c = true := by
  cases a <;> cases b <;> cases c <;> simp_all [ascOpt] <;> omega

instance : IsTotal LinkRec linkAsc := ⟨fun a b => ascOpt_total _ _⟩

instance : IsTrans LinkRec linkAsc := ⟨fun _ _ _ => ascOpt_trans⟩

instance : IsTotal LinkRec linkDesc := ⟨fun a b => ascOpt_total _ _⟩

instance : IsTrans LinkRec linkDesc := ⟨fun _ _ _ => ascOpt_trans⟩

instance : IsTotal LinkRec unlinkDesc := ⟨fun a b => ascOpt_total _ _⟩

instance : IsTrans LinkRec unlinkDesc := ⟨fun _ _ _ => ascOpt_trans⟩

/-- `drop_duplicates(subset=[key], keep='first')`: keep the first record
carrying each key value, scanning left to right. -/
def dropDupByGo {α β : Type} [DecidableEq β] (key : α → β) (seen : List β) : List α → List α
  | [] => []
  | r :: rs =>
    if key r ∈ seen then dropDupByGo key seen rs
    else r :: dropDupByGo key (key r :: seen) rs

/-- `drop_duplicates` entry point with an empty seen-set. -/
def dropDupBy {α β : Type} [DecidableEq β] (key : α → β) (l : List α) : List α :=
  dropDupByGo key [] l

/-- Left merge of the device table with the `sensors` table on
`prod_name` (`add_human_name_column`): every left row yields one output
row per matching right row, or a single row with a null `human_name`
when nothing matches. -/
def add_human_name_column : List Row → List SensorRow → List Row
  | [], _ => []
  | t :: ts, sensors =>
    (if (sensors.filter (fun s => decide (s.prod_name = some t.prod_name))).isEmpty
     then [{ t with human_name := none }]
     else (sensors.filter (fun s => decide (s.prod_name = some t.prod_name))).map
       (fun s => { t with human_name := s.human_name }))
    ++ add_human_name_column ts sensors

/-- Left merge of the device table with a (deduplicated) history table on
`prod_name`, attaching `last_link_date` and `last_link_operator`. -/
def mergeSL : List Row → List LinkRec → List Row
  | [], _ => []
  | t :: ts, right =>
    (if (right.filter (fun r => decide (r.prod_name = t.prod_name))).isEmpty
     then [{ t with last_link_date := none, last_link_operator := none }]
     else (right.filter (fun r => decide (r.prod_name = t.prod_name))).map
       (fun r => { t with last_link_date := r.link_date,
                          last_link_operator := r.link_operator }))
    ++ mergeSL ts right

/-- Left merge attaching `first_link_date`. -/
def mergeFL : List Row → List LinkRec → List Row
  | [], _ => []
  | t :: ts, right =>
    (if (right.filter (fun r => decide (r.prod_name = t.prod_name))).isEmpty
     then [{ t with first_link_date := none }]
     else (right.filter (fun r => decide (r.prod_name = t.prod_name))).map
       (fun r => { t with first_link_date := r.link_date }))
    ++ mergeFL ts right

/-- Left merge attaching `last_unlink_date`. -/
def mergeLU : List Row → List LinkRec → List Row
  | [], _ => []
  | t :: ts, right =>
    (if (right.filter (fun r => decide (r.prod_name = t.prod_name))).isEmpty
     then [{ t with last_unlink_date := none }]
     else (right.filter (fun r => decide (r.prod_name = t.prod_name))).map
       (fun r => { t with last_unlink_date := r.unlink_date }))
    ++ mergeLU ts right

/-- `add_sensor_link_date` from the source: sort the history descending
by `link_date`, keep the first record per `human_name` (sic — not per
device key), drop `human_name` and `unlink_date`, and left-merge onto the
device table by `prod_name`, renaming the carried columns to
`last_link_date` / `last_link_operator`. -/
def add_sensor_link_date (things : List Row) (link_dates : List LinkRec) : List Row :=
  mergeSL things (dropDupBy (fun r => r.human_name) (List.insertionSort linkDesc link_dates))

/-- `add_last_unlink_date` from the source: sort descending by
`unlink_date`, keep the first record per `prod_name`, and left-merge the
kept `unlink_date` onto the device table as `last_unlink_date`. -/
def add_last_unlink_date (things : List Row) (link_dates : List LinkRec) : List Row :=
  mergeLU things (dropDupBy (fun r => r.prod_name) (List.insertionSort unlinkDesc link_dates))

/-- `add_first_link_date` from the source: sort ascending by `link_date`,
keep the first record per `prod_name`, and left-merge the kept
`link_date` onto the device table as `first_link_date`. -/
def add_first_link_date (things : List Row) (link_dates : List LinkRec) : List Row :=
  mergeFL things (dropDupBy (fun r => r.prod_name) (List.insertionSort linkAsc link_dates))

/-- The enrichment sequence of `main`: `add_sensor_link_date`, then
`add_first_link_date`, then `add_last_unlink_date`. -/
def enrich_link_dates (things : List Row) (link_dates : List LinkRec) : List Row :=
  add_last_unlink_date (add_first_link_date (add_sensor_link_date things link_dates) link_dates) link_dates

/-- Minimum of a list of integers, `none` on the empty list. -/
def listMin : List Int → Option Int
  | [] => none
  | x :: xs =>
    match listMin xs with
    | none => some x
    | some m => some (min x m)

/-- Maximum of a list of integers, `none` on the empty list. -/
def listMax : List Int → Option Int
  | [] => none
  | x :: xs =>
    match listMax xs with
    | none => some x
    | some m => some (max x m)

/-- The non-null first-event timestamps of one device's history records. -/
def linkValsOf (link_dates : List LinkRec) (d : String) : List Int :=
  (link_dates.filter (fun r => decide (r.prod_name = d))).filterMap (fun r => r.link_date)

/-- The non-null last-event timestamps of one device's history records. -/
def unlinkValsOf (link_dates : List LinkRec) (d : String) : List Int :=
  (link_dates.filter (fun r => decide (r.prod_name = d))).filterMap (fun r => r.unlink_date)

/-! ### Lemmas about the regex scanners -/

theorem verMatchAt_pat (post : List Char) (d1 d2 d3 : Char)
    (h1 : d1.isDigit = true) (h2 : d2.isDigit = true) (h3 : d3.isDigit = true) :
    verMatchAt ('m' :: 'u' :: 'v' :: 't' :: 'x' :: '_' :: d1 :: d2 :: d3 :: '_' :: post)
      = some (d1, d2, d3) := by
  simp [verMatchAt, h1, h2, h3]

theorem searchVer_append (pre rest : List Char)
    (h : ∀ i, i < pre.length → verMatchAt ((pre ++ rest).drop i) = none) :
    searchVer (pre ++ rest) = searchVer rest := by
  induction pre with
  | nil => simp
  | cons c t ih =>
    have h0 : verMatchAt (c :: (t ++ rest)) = none := by
      have := h 0 (by simp)
      simpa using this
    have hrec : searchVer (t ++ rest) = searchVer rest := by
      refine ih (fun i hi => ?_)
      have := h (i + 1) (by simpa using Nat.succ_lt_succ hi)
      simpa using this
    calc searchVer ((c :: t) ++ rest) = searchVer (c :: (t ++ rest)) := by rw [List.cons_append]
      _ = searchVer (t ++ rest) := by rw [searchVer, h0]
      _ = searchVer rest := hrec

/-- C4: `extract_version_from_serial` is a pure total function; an absent
or empty serial yields `None`; a serial with no occurrence of the
`muvtx_(\d{3})_` pattern yields `None`; and a serial whose first
occurrence of the pattern carries digits `d1 d2 d3` yields the string
`int(d2)` `.` `d3` — the first digit ignored, `d2` re-parsed numerically
so a leading zero is dropped.  The spec's examples `012 ↦ 1.2`,
`103 ↦ 0.3` and `212 ↦ 1.2` are instances. -/
theorem C4_version_extraction :
    extract_version_from_serial none = none ∧
    extract_version_from_serial (some "") = none ∧
    (∀ s : String, searchVer s.data = none → extract_version_from_serial (some s) = none) ∧
    (∀ (pre post : List Char) (d1 d2 d3 : Char),
      d1.isDigit = true → d2.isDigit = true → d3.isDigit = true →
      (∀ i, i < pre.length →
        verMatchAt ((pre ++ ('m' :: 'u' :: 'v' :: 't' :: 'x' :: '_' :: d1 :: d2 :: d3 :: '_' :: post)).drop i) = none) →
      extract_version_from_serial
          (some (String.mk (pre ++ ('m' :: 'u' :: 'v' :: 't' :: 'x' :: '_' :: d1 :: d2 :: d3 :: '_' :: post))))
        = some (toString (d2.toNat - 48) ++ "." ++ String.singleton d3)) ∧
    extract_version_from_serial (some "muvtx_012_fr_sys_000004") = some "1.2" ∧
    extract_version_from_serial (some "muvtx_103_fr_sys_000004") = some "0.3" ∧
    extract_version_from_serial (some "muvtx_212_fr_sys_000004") = some "1.2" := by
  refine ⟨rfl, rfl, ?_, ?_, by decide, by decide, by decide⟩
  · intro s h
    by_cases he : s.data.isEmpty <;> simp [extract_version_from_serial, he, h]
  · intro pre post d1 d2 d3 h1 h2 h3 hpre
    have hne : (pre ++ ('m' :: 'u' :: 'v' :: 't' :: 'x' :: '_' :: d1 :: d2 :: d3 :: '_' :: post)).isEmpty = false := by
      cases pre <;> simp
    have hsearch : searchVer (pre ++ ('m' :: 'u' :: 'v' :: 't' :: 'x' :: '_' :: d1 :: d2 :: d3 :: '_' :: post))
        = some (d1, d2, d3) := by
      rw [searchVer_append _ _ hpre, searchVer, verMatchAt_pat post d1 d2 d3 h1 h2 h3]
    simp [extract_version_from_serial, hne, hsearch]

theorem C4_version_extraction_witness :
    extract_version_from_serial
        (some (String.mk ([] ++ ('m' :: 'u' :: 'v' :: 't' :: 'x' :: '_' :: '0' :: '1' :: '2' :: '_' :: []))))
      = some (toString ('1'.toNat - 48) ++ "." ++ String.singleton '2') :=
  C4_version_extraction.2.2.2.1 [] [] '0' '1' '2' (by decide) (by decide) (by decide)
    (fun i hi => by simp at hi)

/-- C5: the capability flags follow the numeric threshold rule — a
version parsing strictly below 2.1 gives (Oui, Non, Oui), a version
parsing to 2.1 or above gives (Oui, Oui, Oui), an absent or unparseable
version gives (Non, Non, Non); and on the `a.b` version grammar the
pipeline produces, the threshold test is exactly `10 a + b < 21`. -/
theorem C5_feature_flags :
    get_features none = ("Non", "Non", "Non") ∧
    (∀ s : String, pyFloat s = none → get_features (some s) = ("Non", "Non", "Non")) ∧
    (∀ (s : String) (q : ℚ), pyFloat s = some q →
      (q < FEATURE_VERSION_THRESHOLD → get_features (some s) = ("Oui", "Non", "Oui")) ∧
      (FEATURE_VERSION_THRESHOLD ≤ q → get_features (some s) = ("Oui", "Oui", "Oui"))) ∧
    (∀ a b : Nat, a ≤ 9 → b ≤ 9 →
      get_features (some (toString a ++ "." ++ toString b))
        = if 10 * a + b < 21 then ("Oui", "Non", "Oui") else ("Oui", "Oui", "Oui")) := by
  refine ⟨rfl, ?_, ?_, ?_⟩
  · intro s h
    simp [get_features, h]
  · intro s q h
    exact ⟨fun hlt => by simp [get_features, h, not_le.mpr hlt], fun hge => by simp [get_features, h, hge]⟩
  · intro a b ha hb
    interval_cases a <;> interval_cases b <;> decide

theorem C5_feature_flags_witness :
    get_features (some (toString 1 ++ "." ++ toString 2))
      = if 10 * 1 + 2 < 21 then ("Oui", "Non", "Oui") else ("Oui", "Oui", "Oui") :=
  C5_feature_flags.2.2.2 1 2 (by decide) (by decide)

/-- Split a character list on `','`, for talking about the
comma-separated fields of a response. -/
def splitOnComma : List Char → List (List Char)
  | [] => [[]]
  | c :: t =>
    let r := splitOnComma t
    if c = ',' then [] :: r
    else
      match r with
      | [] => [[c]]
      | f :: fs => (c :: f) :: fs

theorem qnwField_no_quote (field rest : List Char) (h : ∀ ch ∈ field, ch ≠ '"') :
    qnwField (field ++ '"' :: rest) = qnwCode rest := by
  induction field with
  | nil => simp [qnwField]
  | cons c t ih =>
    have hc : c ≠ '"' := h c (by simp)
    rw [List.cons_append]
    rw [qnwField, if_neg hc]
    exact ih (fun ch hch => h ch (by simp [hch]))

theorem qnwCode_pat (post : List Char) (a b c d e : Char)
    (ha : a.isDigit = true) (hb : b.isDigit = true) (hc : c.isDigit = true)
    (hd : d.isDigit = true) (he : e.isDigit = true) :
    qnwCode (',' :: '"' :: a :: b :: c :: d :: e :: '"' :: ',' :: post)
      = some (String.mk [a, b, c, d, e]) := by
  simp [qnwCode, ha, hb, hc, hd, he]

/-- C6 counterexample: the 5-digit network code is taken from the second
comma-separated field of the response, not the third.  On an input whose
third comma-separated field is the quoted 5-digit code `22222`, the code
extracts `11111` from the second field instead. -/
theorem C6_third_field_counterexample :
    extract_plmn_code_from_qnwinfo "+QNWINFO: \"X\",\"11111\",\"22222\",9" = some "11111" ∧
    (splitOnComma ("+QNWINFO: \"X\",\"11111\",\"22222\",9".data))[2]? = some ('"' :: '2' :: '2' :: '2' :: '2' :: '2' :: '"' :: []) ∧
    ("11111" : String) ≠ "22222" :=
  ⟨by decide, by decide, by decide⟩

/-- C6 (amended): the 5-digit code is extracted by a fixed-position
pattern match on the second comma-separated field (the quoted field
right after the first quoted field following `+QNWINFO:`); a code in the
static table yields its operator name (`20820` yields
`Bouygues Telecom`), a code absent from the table is echoed verbatim
(never null), and a response not matching the shape yields no
operator. -/
theorem C6_operator_resolution :
    (∀ (field post : List Char) (a b c d e : Char),
      (∀ ch ∈ field, ch ≠ '"') →
      a.isDigit = true → b.isDigit = true → c.isDigit = true →
      d.isDigit = true → e.isDigit = true →
      ∀ s : String,
        s.data = '+' :: 'Q' :: 'N' :: 'W' :: 'I' :: 'N' :: 'F' :: 'O' :: ':' :: ' ' :: '"'
          :: (field ++ '"' :: ',' :: '"' :: a :: b :: c :: d :: e :: '"' :: ',' :: post) →
        extract_plmn_code_from_qnwinfo s = some (String.mk [a, b, c, d, e])) ∧
    plmn_code_to_operator_name "20820" = "Bouygues Telecom" ∧
    (∀ code : String, get_operator_plmn_mappings.lookup code = none →
      plmn_code_to_operator_name code = code) ∧
    (∀ s : String, extract_plmn_code_from_qnwinfo s = none →
      extract_operator_name_from_qnwinfo s = none) ∧
    extract_operator_name_from_qnwinfo "+QNWINFO: \"FDD LTE\",\"20820\",\"LTE BAND 103\",73A"
      = some "Bouygues Telecom" ∧
    extract_operator_name_from_qnwinfo "+QNWINFO: \"FDD LTE\",\"99999\",\"LTE BAND 1\",73A"
      = some "99999" := by
  refine ⟨?_, by decide, ?_, ?_, by decide, by decide⟩
  case refine_2 =>
    intro code h
    simp [plmn_code_to_operator_name, h]
  case refine_3 =>
    intro s h
    simp [extract_operator_name_from_qnwinfo, h]
  · intro field post a b c d e hfield ha hb hc hd he s hs
    rw [extract_plmn_code_from_qnwinfo, hs]
    rw [searchQnw]
    have hmatch : qnwMatchAt ('+' :: 'Q' :: 'N' :: 'W' :: 'I' :: 'N' :: 'F' :: 'O' :: ':' :: ' ' :: '"'
        :: (field ++ '"' :: ',' :: '"' :: a :: b :: c :: d :: e :: '"' :: ',' :: post))
        = some (String.mk [a, b, c, d, e]) := by
      rw [qnwMatchAt]
      have hskip : skipSpaces (' ' :: '"'
          :: (field ++ '"' :: ',' :: '"' :: a :: b :: c :: d :: e :: '"' :: ',' :: post))
          = '"' :: (field ++ '"' :: ',' :: '"' :: a :: b :: c :: d :: e :: '"' :: ',' :: post) := by
        simp [skipSpaces, isPySpace]
      rw [hskip]
      show qnwField (field ++ '"' :: ',' :: '"' :: a :: b :: c :: d :: e :: '"' :: ',' :: post)
        = some (String.mk [a, b, c, d, e])
      rw [qnwField_no_quote field _ hfield, qnwCode_pat post a b c d e ha hb hc hd he]
    rw [hmatch]

theorem C6_operator_resolution_witness :
    extract_plmn_code_from_qnwinfo "+QNWINFO: \"X\",\"20820\",9"
      = some (String.mk ['2', '0', '8', '2', '0']) :=
  C6_operator_resolution.1 ['X'] ['9'] '2' '0' '8' '2' '0' (by decide) (by decide)
    (by decide) (by decide) (by decide) (by decide) _ (by decide)

/-- C8 counterexample: a record whose `current_value` key is present but
null makes the normalizer raise an `AttributeError` (`None.get(...)`)
instead of degrading to null. -/
theorem C8_null_nested_counterexample :
    things_to_dataframe [[("current_value", PyVal.pnone)]] = Except.error "AttributeError" := rfl

theorem thingToRow_good (t : List (String × PyVal)) (h : goodRec t = true) :
    thingToRow t = Except.ok (rowOfThing t) := by
  rw [thingToRow, rowOfThing]
  cases hcv : (t.lookup "current_value").getD (PyVal.pdict []) with
  | pdict es =>
    cases hrep : (es.lookup "reported").getD (PyVal.pdict []) with
    | pdict res => simp [pyGetD, hrep]
    | pnone => exfalso; rw [goodRec, hcv] at h; simp [hrep] at h
    | pstr v => exfalso; rw [goodRec, hcv] at h; simp [hrep] at h
    | pnum v => exfalso; rw [goodRec, hcv] at h; simp [hrep] at h
  | pnone => exfalso; rw [goodRec, hcv] at h; simp at h
  | pstr v => exfalso; rw [goodRec, hcv] at h; simp at h
  | pnum v => exfalso; rw [goodRec, hcv] at h; simp at h

/-- C8 (amended): for every list of raw device records whose nested
`current_value` and `reported` values, when present, are maps (absent
keys are fine), the normalizer returns exactly one canonical row per
input record, in input order, with every missing field degraded to null,
and raises no error; a record carrying a present-but-null nested map
makes it raise instead. -/
theorem C8_inventory_normalization (things : List (List (String × PyVal)))
    (h : things.all goodRec = true) :
    things_to_dataframe things = Except.ok (things.map rowOfThing) := by
  induction things with
  | nil => rfl
  | cons t ts ih =>
    rw [List.all_cons, Bool.and_eq_true] at h
    rw [things_to_dataframe, thingToRow_good t h.1, ih h.2]
    rfl

theorem C8_inventory_normalization_witness :
    things_to_dataframe [[("id", PyVal.pstr "t1")], []]
      = Except.ok ([[("id", PyVal.pstr "t1")], []].map rowOfThing) :=
  C8_inventory_normalization [[("id", PyVal.pstr "t1")], []] (by decide)

/-! ### Generic lemmas about `find?`, sorting and deduplication -/

theorem find?_min_of_sorted {α : Type} {r : α → α → Prop} {p : α → Bool} :
    ∀ {l : List α}, List.Sorted r l → ∀ {x : α}, l.find? p = some x →
      ∀ y ∈ l, p y = true → r x y ∨ x = y := by
  intro l
  induction l with
  | nil => intro _ x hx; simp at hx
  | cons a tl ih =>
    intro hs x hx y hy hpy
    rw [List.sorted_cons] at hs
    by_cases hpa : p a = true
    · rw [List.find?_cons_of_pos _ hpa] at hx
      have hxa : x = a := by injection hx with h; exact h.symm
      subst hxa
      rcases List.mem_cons.mp hy with rfl | hytl
      · exact Or.inr rfl
      · exact Or.inl (hs.1 y hytl)
    · rw [List.find?_cons_of_neg _ hpa] at hx
      rcases List.mem_cons.mp hy with rfl | hytl
      · exact absurd hpy hpa
      · exact ih hs.2 hx y hytl hpy

theorem exists_find?_eq_some {α : Type} {p : α → Bool} :
    ∀ {l : List α} {a : α}, a ∈ l → p a = true → ∃ x, l.find? p = some x := by
  intro l
  induction l with
  | nil => intro a ha; cases ha
  | cons b tl ih =>
    intro a ha hp
    by_cases hpb : p b = true
    · exact ⟨b, List.find?_cons_of_pos _ hpb⟩
    · rcases List.mem_cons.mp ha with rfl | hatl
      · exact absurd hp hpb
      · obtain ⟨x, hx⟩ := ih hatl hp
        exact ⟨x, by rw [List.find?_cons_of_neg _ hpb, hx]⟩

theorem mem_of_mem_dropDupByGo {α β : Type} [DecidableEq β] (key : α → β) :
    ∀ (l : List α) (seen : List β) (a : α), a ∈ dropDupByGo key seen l → a ∈ l := by
  intro l
  induction l with
  | nil =>
    intro seen a h
    rw [dropDupByGo] at h
    cases h
  | cons r rs ih =>
    intro seen a h
    rw [dropDupByGo] at h
    by_cases hs : key r ∈ seen
    · rw [if_pos hs] at h
      exact List.mem_cons_of_mem _ (ih _ _ h)
    · rw [if_neg hs] at h
      rcases List.mem_cons.mp h with rfl | h2
      · exact List.mem_cons_self _ _
      · exact List.mem_cons_of_mem _ (ih _ _ h2)

theorem mem_of_mem_dropDupBy {α β : Type} [DecidableEq β] (key : α → β)
    (l : List α) (a : α) (h : a ∈ dropDupBy key l) : a ∈ l :=
  mem_of_mem_dropDupByGo key l [] a h

theorem filter_dropDupByGo {α β : Type} [DecidableEq β] (key : α → β) (k : β) :
    ∀ (l : List α) (seen : List β),
      (dropDupByGo key seen l).filter (fun a => decide (key a = k))
        = if k ∈ seen then [] else (l.find? (fun a => decide (key a = k))).toList := by
  intro l
  induction l with
  | nil =>
    intro seen
    rw [dropDupByGo]
    by_cases hk : k ∈ seen <;> simp [hk]
  | cons r rs ih =>
    intro seen
    rw [dropDupByGo]
    by_cases hsr : key r ∈ seen
    · rw [if_pos hsr, ih]
      by_cases hk : k ∈ seen
      · rw [if_pos hk, if_pos hk]
      · rw [if_neg hk, if_neg hk]
        have hpr : ¬ ((fun a => decide (key a = k)) r = true) := by
          simp only [decide_eq_true_eq]
          exact fun he => hk (he ▸ hsr)
        rw [@List.find?_cons_of_neg _ (fun a => decide (key a = k)) r rs hpr]
    · rw [if_neg hsr, List.filter_cons]
      by_cases hrk : key r = k
      · have hpr : ((fun a => decide (key a = k)) r = true) := by simp [hrk]
        rw [if_pos hpr, ih]
        have hkseen : k ∈ key r :: seen := by rw [hrk]; exact List.mem_cons_self _ _
        rw [if_pos hkseen]
        have hk : k ∉ seen := fun hh => hsr (hrk ▸ hh)
        rw [if_neg hk, @List.find?_cons_of_pos _ (fun a => decide (key a = k)) r rs hpr]
        rfl
      · have hpr : ¬ ((fun a => decide (key a = k)) r = true) := by simp [hrk]
        rw [if_neg hpr, ih]
        have hmem : k ∈ key r :: seen ↔ k ∈ seen :=
          ⟨fun hh => (List.mem_cons.mp hh).resolve_left (fun he => hrk he.symm), List.mem_cons_of_mem _⟩
        by_cases hk : k ∈ seen
        · rw [if_pos (hmem.mpr hk), if_pos hk]
        · rw [if_neg (fun hh => hk (hmem.mp hh)), if_neg hk,
            @List.find?_cons_of_neg _ (fun a => decide (key a = k)) r rs hpr]

theorem filter_dropDupBy {α β : Type} [DecidableEq β] (key : α → β) (k : β) (l : List α) :
    (dropDupBy key l).filter (fun a => decide (key a = k))
      = (l.find? (fun a => decide (key a = k))).toList := by
  rw [dropDupBy, filter_dropDupByGo]
  rw [if_neg (List.not_mem_nil k)]

/-! ### The two prod-keyed passes are per-row column updates -/

/-- The `first_link_date` attached to device key `k`: the `link_date` of
the first record carrying `k` in the ascending sort. -/
def firstLinkVal (link_dates : List LinkRec) (k : String) : Option Int :=
  ((List.insertionSort linkAsc link_dates).find? (fun r => decide (r.prod_name = k))).bind
    (fun r => r.link_date)

/-- The `last_unlink_date` attached to device key `k`: the `unlink_date`
of the first record carrying `k` in the descending sort. -/
def lastUnlinkVal (link_dates : List LinkRec) (k : String) : Option Int :=
  ((List.insertionSort unlinkDesc link_dates).find? (fun r => decide (r.prod_name = k))).bind
    (fun r => r.unlink_date)

theorem mergeFL_dropDup (base : List LinkRec) :
    ∀ things : List Row,
      mergeFL things (dropDupBy (fun r => r.prod_name) base)
        = things.map (fun t =>
            { t with first_link_date :=
                (base.find? (fun r => decide (r.prod_name = t.prod_name))).bind (fun r => r.link_date) }) := by
  intro things
  induction things with
  | nil => rfl
  | cons t ts ih =>
    rw [mergeFL, ih, List.map_cons, filter_dropDupBy]
    cases hf : base.find? (fun r => decide (r.prod_name = t.prod_name)) with
    | none => simp
    | some r => simp

theorem mergeLU_dropDup (base : List LinkRec) :
    ∀ things : List Row,
      mergeLU things (dropDupBy (fun r => r.prod_name) base)
        = things.map (fun t =>
            { t with last_unlink_date :=
                (base.find? (fun r => decide (r.prod_name = t.prod_name))).bind (fun r => r.unlink_date) }) := by
  intro things
  induction things with
  | nil => rfl
  | cons t ts ih =>
    rw [mergeLU, ih, List.map_cons, filter_dropDupBy]
    cases hf : base.find? (fun r => decide (r.prod_name = t.prod_name)) with
    | none => simp
    | some r => simp

theorem add_first_link_date_eq_map (things : List Row) (link_dates : List LinkRec) :
    add_first_link_date things link_dates
      = things.map (fun t => { t with first_link_date := firstLinkVal link_dates t.prod_name }) := by
  rw [add_first_link_date, mergeFL_dropDup]
  rfl

theorem add_last_unlink_date_eq_map (things : List Row) (link_dates : List LinkRec) :
    add_last_unlink_date things link_dates
      = things.map (fun t => { t with last_unlink_date := lastUnlinkVal link_dates t.prod_name }) := by
  rw [add_last_unlink_date, mergeLU_dropDup]
  rfl

/-! ### Minimum / maximum characterizations -/

theorem listMin_mem : ∀ {l : List Int} {m : Int}, listMin l = some m → m ∈ l := by
  intro l
  induction l with
  | nil => intro m h; cases h
  | cons x xs ih =>
    intro m h
    rw [listMin] at h
    cases hxs : listMin xs with
    | none =>
      rw [hxs] at h
      injection h with h
      rw [← h]
      exact List.mem_cons_self _ _
    | some m0 =>
      rw [hxs] at h
      injection h with h
      rcases le_total x m0 with hle | hle
      · rw [← h, min_eq_left hle]
        exact List.mem_cons_self _ _
      · rw [← h, min_eq_right hle]
        exact List.mem_cons_of_mem _ (ih hxs)

theorem listMin_eq_of {l : List Int} {m : Int} (hm : m ∈ l) (hle : ∀ y ∈ l, m ≤ y) :
    listMin l = some m := by
  induction l with
  | nil => cases hm
  | cons x xs ih =>
    rw [listMin]
    rcases List.mem_cons.mp hm with rfl | hmxs
    · cases hxs : listMin xs with
      | none => rfl
      | some m0 =>
        have hm0 : m0 ∈ xs := listMin_mem hxs
        show some (min m m0) = some m
        rw [min_eq_left (hle m0 (List.mem_cons_of_mem _ hm0))]
    · rw [ih hmxs (fun y hy => hle y (List.mem_cons_of_mem _ hy))]
      show some (min x m) = some m
      rw [min_eq_right (hle x (List.mem_cons_self _ _))]

theorem listMax_mem : ∀ {l : List Int} {m : Int}, listMax l = some m → m ∈ l := by
  intro l
  induction l with
  | nil => intro m h; cases h
  | cons x xs ih =>
    intro m h
    rw [listMax] at h
    cases hxs : listMax xs with
    | none =>
      rw [hxs] at h
      injection h with h
      rw [← h]
      exact List.mem_cons_self _ _
    | some m0 =>
      rw [hxs] at h
      injection h with h
      rcases le_total x m0 with hle | hle
      · rw [← h, max_eq_right hle]
        exact List.mem_cons_of_mem _ (ih hxs)
      · rw [← h, max_eq_left hle]
        exact List.mem_cons_self _ _

theorem listMax_eq_of {l : List Int} {m : Int} (hm : m ∈ l) (hle : ∀ y ∈ l, y ≤ m) :
    listMax l = some m := by
  induction l with
  | nil => cases hm
  | cons x xs ih =>
    rw [listMax]
    rcases List.mem_cons.mp hm with rfl | hmxs
    · cases hxs : listMax xs with
      | none => rfl
      | some m0 =>
        have hm0 : m0 ∈ xs := listMax_mem hxs
        show some (max m m0) = some m
        rw [max_eq_left (hle m0 (List.mem_cons_of_mem _ hm0))]
    · rw [ih hmxs (fun y hy => hle y (List.mem_cons_of_mem _ hy))]
      show some (max x m) = some m
      rw [max_eq_right (hle x (List.mem_cons_self _ _))]

/-! ### Values attached by the two prod-keyed passes -/

theorem firstLinkVal_no_history (ld : List LinkRec) (d : String)
    (h : ∀ r ∈ ld, r.prod_name ≠ d) : firstLinkVal ld d = none := by
  have hfind : (List.insertionSort linkAsc ld).find? (fun r => decide (r.prod_name = d)) = none := by
    rw [List.find?_eq_none]
    intro x hx
    simp only [decide_eq_true_eq]
    exact h x ((List.perm_insertionSort linkAsc ld).mem_iff.mp hx)
  rw [firstLinkVal, hfind]
  rfl

theorem lastUnlinkVal_no_history (ld : List LinkRec) (d : String)
    (h : ∀ r ∈ ld, r.prod_name ≠ d) : lastUnlinkVal ld d = none := by
  have hfind : (List.insertionSort unlinkDesc ld).find? (fun r => decide (r.prod_name = d)) = none := by
    rw [List.find?_eq_none]
    intro x hx
    simp only [decide_eq_true_eq]
    exact h x ((List.perm_insertionSort unlinkDesc ld).mem_iff.mp hx)
  rw [lastUnlinkVal, hfind]
  rfl

theorem firstLinkVal_min (ld : List LinkRec) (d : String)
    (h : ∃ r ∈ ld, r.prod_name = d ∧ r.link_date ≠ none) :
    firstLinkVal ld d = listMin (linkValsOf ld d) ∧ firstLinkVal ld d ≠ none := by
  obtain ⟨r0, hr0mem, hr0key, hr0some⟩ := h
  have hsortmem : r0 ∈ List.insertionSort linkAsc ld :=
    (List.perm_insertionSort linkAsc ld).mem_iff.mpr hr0mem
  obtain ⟨x, hx⟩ := @exists_find?_eq_some _ (fun r => decide (r.prod_name = d)) _ _
    hsortmem (by simp [hr0key])
  have hxkey : x.prod_name = d := by
    have := List.find?_some hx
    simpa using this
  have hxmem : x ∈ ld :=
    (List.perm_insertionSort linkAsc ld).mem_iff.mp (List.mem_of_find?_eq_some hx)
  have hsorted : List.Sorted linkAsc (List.insertionSort linkAsc ld) :=
    List.sorted_insertionSort linkAsc ld
  have hmin : ∀ y ∈ ld, y.prod_name = d → linkAsc x y ∨ x = y := by
    intro y hy hykey
    exact find?_min_of_sorted hsorted hx y
      ((List.perm_insertionSort linkAsc ld).mem_iff.mpr hy) (by simp [hykey])
  cases hxl : x.link_date with
  | none =>
    exfalso
    rcases hmin r0 hr0mem hr0key with hle | heq
    · rw [linkAsc, hxl] at hle
      cases hl0 : r0.link_date with
      | none => exact hr0some hl0
      | some v0 =>
        rw [hl0] at hle
        simp [ascOpt] at hle
    · rw [heq] at hxl
      exact hr0some hxl
  | some m =>
    have hval : firstLinkVal ld d = some m := by
      rw [firstLinkVal, hx]
      simp [hxl]
    refine ⟨?_, by rw [hval]; simp⟩
    rw [hval]
    refine (listMin_eq_of ?_ ?_).symm
    · exact List.mem_filterMap.mpr ⟨x, List.mem_filter.mpr ⟨hxmem, by simp [hxkey]⟩, hxl⟩
    · intro v hv
      obtain ⟨y, hyf, hyl⟩ := List.mem_filterMap.mp hv
      have hymem : y ∈ ld := (List.mem_filter.mp hyf).1
      have hykey : y.prod_name = d := by
        have := (List.mem_filter.mp hyf).2
        simpa using this
      rcases hmin y hymem hykey with hle | heq
      · rw [linkAsc, hxl, hyl] at hle
        simpa [ascOpt] using hle
      · have : some m = some v := by rw [← hxl, heq, hyl]
        injection this with hmv
        exact le_of_eq hmv

theorem lastUnlinkVal_max (ld : List LinkRec) (d : String)
    (h : ∃ r ∈ ld, r.prod_name = d ∧ r.unlink_date ≠ none) :
    lastUnlinkVal ld d = listMax (unlinkValsOf ld d) ∧ lastUnlinkVal ld d ≠ none := by
  obtain ⟨r0, hr0mem, hr0key, hr0some⟩ := h
  have hsortmem : r0 ∈ List.insertionSort unlinkDesc ld :=
    (List.perm_insertionSort unlinkDesc ld).mem_iff.mpr hr0mem
  obtain ⟨x, hx⟩ := @exists_find?_eq_some _ (fun r => decide (r.prod_name = d)) _ _
    hsortmem (by simp [hr0key])
  have hxkey : x.prod_name = d := by
    have := List.find?_some hx
    simpa using this
  have hxmem : x ∈ ld :=
    (List.perm_insertionSort unlinkDesc ld).mem_iff.mp (List.mem_of_find?_eq_some hx)
  have hsorted : List.Sorted unlinkDesc (List.insertionSort unlinkDesc ld) :=
    List.sorted_insertionSort unlinkDesc ld
  have hmax : ∀ y ∈ ld, y.prod_name = d → unlinkDesc x y ∨ x = y := by
    intro y hy hykey
    exact find?_min_of_sorted hsorted hx y
      ((List.perm_insertionSort unlinkDesc ld).mem_iff.mpr hy) (by simp [hykey])
  cases hxl : x.unlink_date with
  | none =>
    exfalso
    rcases hmax r0 hr0mem hr0key with hle | heq
    · rw [unlinkDesc, hxl] at hle
      cases hl0 : r0.unlink_date with
      | none => exact hr0some hl0
      | some v0 =>
        rw [hl0] at hle
        simp [ascOpt] at hle
    · rw [heq] at hxl
      exact hr0some hxl
  | some m =>
    have hval : lastUnlinkVal ld d = some m := by
      rw [lastUnlinkVal, hx]
      simp [hxl]
    refine ⟨?_, by rw [hval]; simp⟩
    rw [hval]
    refine (listMax_eq_of ?_ ?_).symm
    · exact List.mem_filterMap.mpr ⟨x, List.mem_filter.mpr ⟨hxmem, by simp [hxkey]⟩, hxl⟩
    · intro v hv
      obtain ⟨y, hyf, hyl⟩ := List.mem_filterMap.mp hv
      have hymem : y ∈ ld := (List.mem_filter.mp hyf).1
      have hykey : y.prod_name = d := by
        have := (List.mem_filter.mp hyf).2
        simpa using this
      rcases hmax y hymem hykey with hle | heq
      · rw [unlinkDesc, hxl, hyl] at hle
        have : -m ≤ -v := by simpa [ascOpt] using hle
        omega
      · have : some m = some v := by rw [← hxl, heq, hyl]
        injection this with hmv
        exact le_of_eq hmv.symm

/-- C3: for every device key with history records (all of them carrying
timestamps), `add_first_link_date` attaches the minimum first-event
timestamp over the key's records, and `add_last_unlink_date` attaches
the maximum last-event timestamp over those records — the latter sorted
only by the last-event column, independently of which record holds the
maximum first-event timestamp. -/
theorem C3_first_link_min_last_unlink_max (things : List Row) (ld : List LinkRec) (d : String)
    (hex : ∃ r ∈ ld, r.prod_name = d)
    (hnn : ∀ r ∈ ld, r.prod_name = d → r.link_date ≠ none ∧ r.unlink_date ≠ none) :
    (∀ row ∈ add_first_link_date things ld, row.prod_name = d →
      row.first_link_date = listMin (linkValsOf ld d)) ∧
    (∀ row ∈ add_last_unlink_date things ld, row.prod_name = d →
      row.last_unlink_date = listMax (unlinkValsOf ld d)) := by
  obtain ⟨r0, hr0, hk0⟩ := hex
  have h1 : ∃ r ∈ ld, r.prod_name = d ∧ r.link_date ≠ none :=
    ⟨r0, hr0, hk0, (hnn r0 hr0 hk0).1⟩
  have h2 : ∃ r ∈ ld, r.prod_name = d ∧ r.unlink_date ≠ none :=
    ⟨r0, hr0, hk0, (hnn r0 hr0 hk0).2⟩
  constructor
  · intro row hrow hkey
    rw [add_first_link_date_eq_map] at hrow
    obtain ⟨t, ht, rfl⟩ := List.mem_map.mp hrow
    have htd : t.prod_name = d := hkey
    show firstLinkVal ld t.prod_name = listMin (linkValsOf ld d)
    rw [htd]
    exact (firstLinkVal_min ld d h1).1
  · intro row hrow hkey
    rw [add_last_unlink_date_eq_map] at hrow
    obtain ⟨t, ht, rfl⟩ := List.mem_map.mp hrow
    have htd : t.prod_name = d := hkey
    show lastUnlinkVal ld t.prod_name = listMax (unlinkValsOf ld d)
    rw [htd]
    exact (lastUnlinkVal_max ld d h2).1

theorem C3_first_link_min_last_unlink_max_witness :
    ({ prod_name := "A", first_link_date := some 1 } : Row).first_link_date
      = listMin (linkValsOf
          [{ human_name := some "H", prod_name := "A", link_date := some 3,
             link_operator := none, unlink_date := some 9 },
           { human_name := some "H", prod_name := "A", link_date := some 1,
             link_operator := none, unlink_date := some 7 }] "A") :=
  (C3_first_link_min_last_unlink_max [{ prod_name := "A" }]
      [{ human_name := some "H", prod_name := "A", link_date := some 3,
         link_operator := none, unlink_date := some 9 },
       { human_name := some "H", prod_name := "A", link_date := some 1,
         link_operator := none, unlink_date := some 7 }] "A"
      (by decide) (by decide)).1
    { prod_name := "A", first_link_date := some 1 } (by decide) (by decide)

/-- C10: null timestamps never shadow real ones — when a device has at
least one record with a non-null first-event timestamp,
`first_link_date` is non-null and equals the minimum over the non-null
first-event timestamps (`linkValsOf` keeps exactly the non-null ones);
symmetrically for `last_unlink_date` and the maximum. -/
theorem C10_nulls_sort_last (things : List Row) (ld : List LinkRec) (d : String) :
    ((∃ r ∈ ld, r.prod_name = d ∧ r.link_date ≠ none) →
      ∀ row ∈ add_first_link_date things ld, row.prod_name = d →
        row.first_link_date = listMin (linkValsOf ld d) ∧ row.first_link_date ≠ none) ∧
    ((∃ r ∈ ld, r.prod_name = d ∧ r.unlink_date ≠ none) →
      ∀ row ∈ add_last_unlink_date things ld, row.prod_name = d →
        row.last_unlink_date = listMax (unlinkValsOf ld d) ∧ row.last_unlink_date ≠ none) := by
  constructor
  · intro h1 row hrow hkey
    rw [add_first_link_date_eq_map] at hrow
    obtain ⟨t, ht, rfl⟩ := List.mem_map.mp hrow
    have htd : t.prod_name = d := hkey
    show firstLinkVal ld t.prod_name = listMin (linkValsOf ld d) ∧ firstLinkVal ld t.prod_name ≠ none
    rw [htd]
    exact firstLinkVal_min ld d h1
  · intro h2 row hrow hkey
    rw [add_last_unlink_date_eq_map] at hrow
    obtain ⟨t, ht, rfl⟩ := List.mem_map.mp hrow
    have htd : t.prod_name = d := hkey
    show lastUnlinkVal ld t.prod_name = listMax (unlinkValsOf ld d) ∧ lastUnlinkVal ld t.prod_name ≠ none
    rw [htd]
    exact lastUnlinkVal_max ld d h2

theorem C10_nulls_sort_last_witness :
    ({ prod_name := "A", first_link_date := some 5 } : Row).first_link_date
      = listMin (linkValsOf
          [{ human_name := some "H", prod_name := "A", link_date := none,
             link_operator := none, unlink_date := none },
           { human_name := some "H", prod_name := "A", link_date := some 5,
             link_operator := none, unlink_date := some 8 }] "A")
      ∧ ({ prod_name := "A", first_link_date := some 5 } : Row).first_link_date ≠ none :=
  (C10_nulls_sort_last [{ prod_name := "A" }]
      [{ human_name := some "H", prod_name := "A", link_date := none,
         link_operator := none, unlink_date := none },
       { human_name := some "H", prod_name := "A", link_date := some 5,
         link_operator := none, unlink_date := some 8 }] "A").1
    (by decide) { prod_name := "A", first_link_date := some 5 } (by decide) (by decide)

/-! ### Devices without history: row preservation and null fields -/

theorem mergeSL_filter_count (right : List LinkRec) (d : String)
    (hd : right.filter (fun r => decide (r.prod_name = d)) = []) :
    ∀ things : List Row,
      ((mergeSL things right).filter (fun row => decide (row.prod_name = d))).length
        = (things.filter (fun row => decide (row.prod_name = d))).length := by
  intro things
  induction things with
  | nil => rfl
  | cons t ts ih =>
    rw [mergeSL, List.filter_append, List.length_append, ih, List.filter_cons]
    by_cases htd : t.prod_name = d
    · have hfilt : right.filter (fun r => decide (r.prod_name = t.prod_name)) = [] := by
        rw [htd]
        exact hd
      rw [hfilt]
      simp [htd]
      omega
    · by_cases hempty : (right.filter (fun r => decide (r.prod_name = t.prod_name))).isEmpty = true
      · rw [if_pos hempty]
        simp [htd]
      · rw [if_neg hempty]
        have hnil : ((right.filter (fun r => decide (r.prod_name = t.prod_name))).map
            (fun r => ({ t with last_link_date := r.link_date,
                                last_link_operator := r.link_operator } : Row))).filter
            (fun row => decide (row.prod_name = d)) = [] := by
          rw [List.filter_eq_nil_iff]
          intro x hx
          obtain ⟨r, hr, rfl⟩ := List.mem_map.mp hx
          simp [htd]
        rw [hnil]
        simp [htd]

theorem mergeSL_no_history_fields (right : List LinkRec) (d : String)
    (hd : right.filter (fun r => decide (r.prod_name = d)) = []) :
    ∀ things : List Row, ∀ x ∈ mergeSL things right, x.prod_name = d →
      x.last_link_date = none ∧ x.last_link_operator = none := by
  intro things
  induction things with
  | nil => intro x hx; cases hx
  | cons t ts ih =>
    intro x hx hxd
    rw [mergeSL] at hx
    rcases List.mem_append.mp hx with hhead | htail
    · by_cases hempty : (right.filter (fun r => decide (r.prod_name = t.prod_name))).isEmpty = true
      · rw [if_pos hempty] at hhead
        have hx1 : x = { t with last_link_date := none, last_link_operator := none } := by
          simpa using hhead
        rw [hx1]
        exact ⟨rfl, rfl⟩
      · rw [if_neg hempty] at hhead
        obtain ⟨r, hr, rfl⟩ := List.mem_map.mp hhead
        exfalso
        have htd : t.prod_name = d := hxd
        rw [htd, hd] at hr
        cases hr
    · exact ih x htail hxd

/-- C7: a device with zero history records keeps exactly its rows in the
enriched output of the three passes (it is not dropped and not
duplicated), and its `first_link_date`, `last_link_date` and
`last_unlink_date` are all null. -/
theorem C7_zero_history_device (things : List Row) (ld : List LinkRec) (d : String)
    (h : ∀ r ∈ ld, r.prod_name ≠ d) :
    ((enrich_link_dates things ld).filter (fun row => decide (row.prod_name = d))).length
      = (things.filter (fun row => decide (row.prod_name = d))).length ∧
    (∀ row ∈ enrich_link_dates things ld, row.prod_name = d →
      row.first_link_date = none ∧ row.last_link_date = none ∧ row.last_unlink_date = none) := by
  have hsub : ∀ x ∈ dropDupBy (fun r => r.human_name) (List.insertionSort linkDesc ld), x ∈ ld :=
    fun x hx => (List.perm_insertionSort linkDesc ld).mem_iff.mp
      (mem_of_mem_dropDupBy (fun r => r.human_name) _ x hx)
  have hdfilt : (dropDupBy (fun r => r.human_name) (List.insertionSort linkDesc ld)).filter
      (fun r => decide (r.prod_name = d)) = [] := by
    rw [List.filter_eq_nil_iff]
    intro x hx
    simp only [decide_eq_true_eq]
    exact h x (hsub x hx)
  constructor
  · rw [enrich_link_dates, add_last_unlink_date_eq_map, add_first_link_date_eq_map,
      add_sensor_link_date]
    have hmap2 : ∀ (l : List Row) (g : Row → Row), (∀ t, (g t).prod_name = t.prod_name) →
        ((l.map g).filter (fun row => decide (row.prod_name = d))).length
          = (l.filter (fun row => decide (row.prod_name = d))).length := by
      intro l g hg
      induction l with
      | nil => rfl
      | cons a as ihl =>
        rw [List.map_cons, List.filter_cons, List.filter_cons, hg a]
        by_cases had : a.prod_name = d
        · simp [had, ihl]
        · simp [had, ihl]
    rw [hmap2 _ (fun t => { t with last_unlink_date := lastUnlinkVal ld t.prod_name }) (fun t => rfl),
      hmap2 _ (fun t => { t with first_link_date := firstLinkVal ld t.prod_name }) (fun t => rfl)]
    exact mergeSL_filter_count _ d hdfilt things
  · intro row hrow hkey
    rw [enrich_link_dates, add_last_unlink_date_eq_map, add_first_link_date_eq_map,
      add_sensor_link_date] at hrow
    obtain ⟨row1, hrow1, rfl⟩ := List.mem_map.mp hrow
    obtain ⟨row0, hrow0, rfl⟩ := List.mem_map.mp hrow1
    have hk0 : row0.prod_name = d := hkey
    have hfields := mergeSL_no_history_fields _ d hdfilt things row0 hrow0 hk0
    refine ⟨?_, ?_, ?_⟩
    · show firstLinkVal ld row0.prod_name = none
      rw [hk0]
      exact firstLinkVal_no_history ld d h
    · exact hfields.1
    · show lastUnlinkVal ld row0.prod_name = none
      rw [hk0]
      exact lastUnlinkVal_no_history ld d h

theorem C7_zero_history_device_witness :
    ((enrich_link_dates [{ prod_name := "A" }]
        [{ human_name := some "H", prod_name := "B", link_date := some 1,
           link_operator := none, unlink_date := some 2 }]).filter
        (fun row => decide (row.prod_name = "A"))).length
      = (([{ prod_name := "A" }] : List Row).filter (fun row => decide (row.prod_name = "A"))).length :=
  (C7_zero_history_device [{ prod_name := "A" }]
      [{ human_name := some "H", prod_name := "B", link_date := some 1,
         link_operator := none, unlink_date := some 2 }] "A" (by decide)).1

/-! ### Commutativity of the three passes -/

theorem mergeSL_map_FL (ld right : List LinkRec) :
    ∀ l : List Row,
      mergeSL (l.map (fun t => { t with first_link_date := firstLinkVal ld t.prod_name })) right
        = (mergeSL l right).map (fun t => { t with first_link_date := firstLinkVal ld t.prod_name }) := by
  intro l
  induction l with
  | nil => rfl
  | cons t ts ih =>
    rw [List.map_cons, mergeSL, mergeSL, List.map_append, ih]
    congr 1
    by_cases hempty : (right.filter (fun r => decide (r.prod_name = t.prod_name))).isEmpty = true
    · simp [hempty]
    · simp [hempty, List.map_map]

theorem mergeSL_map_LU (ld right : List LinkRec) :
    ∀ l : List Row,
      mergeSL (l.map (fun t => { t with last_unlink_date := lastUnlinkVal ld t.prod_name })) right
        = (mergeSL l right).map (fun t => { t with last_unlink_date := lastUnlinkVal ld t.prod_name }) := by
  intro l
  induction l with
  | nil => rfl
  | cons t ts ih =>
    rw [List.map_cons, mergeSL, mergeSL, List.map_append, ih]
    congr 1
    by_cases hempty : (right.filter (fun r => decide (r.prod_name = t.prod_name))).isEmpty = true
    · simp [hempty]
    · simp [hempty, List.map_map]

theorem SF_comm (x : List Row) (ld : List LinkRec) :
    add_sensor_link_date (add_first_link_date x ld) ld
      = add_first_link_date (add_sensor_link_date x ld) ld := by
  rw [add_first_link_date_eq_map, add_first_link_date_eq_map, add_sensor_link_date,
    add_sensor_link_date]
  exact mergeSL_map_FL ld _ x

theorem SU_comm (x : List Row) (ld : List LinkRec) :
    add_sensor_link_date (add_last_unlink_date x ld) ld
      = add_last_unlink_date (add_sensor_link_date x ld) ld := by
  rw [add_last_unlink_date_eq_map, add_last_unlink_date_eq_map, add_sensor_link_date,
    add_sensor_link_date]
  exact mergeSL_map_LU ld _ x

theorem FU_comm (x : List Row) (ld : List LinkRec) :
    add_first_link_date (add_last_unlink_date x ld) ld
      = add_last_unlink_date (add_first_link_date x ld) ld := by
  rw [add_first_link_date_eq_map, add_last_unlink_date_eq_map,
    add_first_link_date_eq_map, add_last_unlink_date_eq_map, List.map_map, List.map_map]
  congr 1

/-- C9: with one fixed history table, the three enrichment passes
commute — all six application orders produce the same table, because
each pass writes only its own columns and reads only the device key. -/
theorem C9_pass_commutativity (things : List Row) (ld : List LinkRec) :
    (add_last_unlink_date (add_first_link_date (add_sensor_link_date things ld) ld) ld
      = add_last_unlink_date (add_sensor_link_date (add_first_link_date things ld) ld) ld) ∧
    (add_last_unlink_date (add_first_link_date (add_sensor_link_date things ld) ld) ld
      = add_first_link_date (add_last_unlink_date (add_sensor_link_date things ld) ld) ld) ∧
    (add_last_unlink_date (add_first_link_date (add_sensor_link_date things ld) ld) ld
      = add_first_link_date (add_sensor_link_date (add_last_unlink_date things ld) ld) ld) ∧
    (add_last_unlink_date (add_first_link_date (add_sensor_link_date things ld) ld) ld
      = add_sensor_link_date (add_last_unlink_date (add_first_link_date things ld) ld) ld) ∧
    (add_last_unlink_date (add_first_link_date (add_sensor_link_date things ld) ld) ld
      = add_sensor_link_date (add_first_link_date (add_last_unlink_date things ld) ld) ld) := by
  refine ⟨?_, ?_, ?_, ?_, ?_⟩
  · rw [SF_comm]
  · rw [FU_comm]
  · rw [← SF_comm, SU_comm, FU_comm, SF_comm]
  · rw [SU_comm, SF_comm]
  · rw [SF_comm, SU_comm, FU_comm]

/-! ### The last-link pass groups by assignment name, not device key -/

/-- C1: `add_sensor_link_date` deduplicates the history by `human_name`
(assignment name) instead of by device key.  On a history where one
assignment `H` covers two devices, sorting descending by `link_date` and
keeping one record per `human_name` discards device A's only record, so
A's `last_link_date` comes out null even though the maximum first-event
timestamp over A's records is 1 — contradicting the per-device-key
grouping the spec describes. -/
theorem C1_last_link_group_key_bug :
    (add_sensor_link_date
        [{ prod_name := "A" }, { prod_name := "B" }]
        [{ human_name := some "H", prod_name := "A", link_date := some 1,
           link_operator := some "OpA", unlink_date := some 10 },
         { human_name := some "H", prod_name := "B", link_date := some 2,
           link_operator := some "OpB", unlink_date := some 20 }]).map
        (fun r => (r.prod_name, r.last_link_date))
      = [("A", none), ("B", some 2)] ∧
    listMax (linkValsOf
        [{ human_name := some "H", prod_name := "A", link_date := some 1,
           link_operator := some "OpA", unlink_date := some 10 },
         { human_name := some "H", prod_name := "B", link_date := some 2,
           link_operator := some "OpB", unlink_date := some 20 }] "A")
      = some 1 :=
  ⟨by decide, by decide⟩

/-- C2: left-join totality fails on the code.  A device whose history
records fall under two assignment names survives the per-`human_name`
deduplication twice, and the left merge by device key then emits two
rows for the single inventory row of that device. -/
theorem C2_exactly_once_bug :
    ((enrich_link_dates
        (add_human_name_column [{ prod_name := "A" }] [])
        [{ human_name := some "H1", prod_name := "A", link_date := some 1,
           link_operator := none, unlink_date := some 5 },
         { human_name := some "H2", prod_name := "A", link_date := some 2,
           link_operator := none, unlink_date := some 6 }]).filter
        (fun row => decide (row.prod_name = "A"))).length = 2 ∧
    (([{ prod_name := "A" }] : List Row).filter (fun row => decide (row.prod_name = "A"))).length = 1 :=
  ⟨by decide, by decide⟩

end HubspotData
